import Mathlib

/-!
Verification development for the pymovements gaze signal-processing and
event-detection pipeline.

The repository snapshot contains the dataset definition files
(`src/pymovements/datasets/*.yaml`) and the tutorial notebook
(`docs/source/tutorials/pymovements-in-10-minutes.ipynb`); the Python core
(detectors, transforms, orchestrator) is described by the specification.
Definitions below that embed that missing core carry a doc comment starting
with `Modelled from the spec:`.  Numeric signal values are modelled as exact
rationals; transcendental per-sample kernels (arctangent conversion,
polynomial least-squares fitting) are abstracted as function parameters
because the claims under study concern classification, interval bookkeeping,
validation and column effects, none of which depend on those kernels.
-/

namespace Pym

/-- Modelled from the spec: an Event is a labeled half-open interval
[onset, offset) over a Trial's timestamp (sample index) axis, with a name
and a duration column equal to offset - onset. -/
structure Event where
  name : String
  onset : Nat
  offset : Nat
  duration : Nat
deriving DecidableEq, Repr

/-- Squared Euclidean norm of a 2-d velocity sample (channel speed squared).
Working with squared speeds avoids the square root: for a nonnegative
threshold t, speed > t iff speedSq > t * t. -/
def speedSq (u : ℚ × ℚ) : ℚ :=
  u.1 * u.1 + u.2 * u.2

/-- Modelled from the spec: the run-length state machine shared by the
run-length-based detectors, states OUTSIDE (cur = none) and INSIDE
(cur = some s, where s is the onset of the open run).  `i` is the global
index of the next sample.  OUTSIDE to INSIDE on the first sample meeting the
inclusion predicate, INSIDE to OUTSIDE on the first sample failing it
(emitting the accumulated interval), terminal flush at trial end. -/
def runsAux (p : α → Bool) : List α → Nat → Option Nat → List (Nat × Nat)
  | [], _, none => []
  | [], i, some s => [(s, i)]
  | x :: rest, i, none =>
      if p x then runsAux p rest (i + 1) (some i) else runsAux p rest (i + 1) none
  | x :: rest, i, some s =>
      if p x then runsAux p rest (i + 1) (some s)
      else (s, i) :: runsAux p rest (i + 1) none

/-- Maximal runs of samples satisfying `p`, as half-open index intervals. -/
def runs (p : α → Bool) (l : List α) : List (Nat × Nat) :=
  runsAux p l 0 none

/-- Modelled from the spec: turn raw run intervals into named events, dropping
events shorter than `minDur` (the minimum_duration filter common to all
detectors). -/
def mkEvents (nm : String) (minDur : Nat) (rs : List (Nat × Nat)) : List Event :=
  (rs.map (fun r => ⟨nm, r.1, r.2, r.2 - r.1⟩)).filter
    (fun e => decide (minDur ≤ e.duration))

/-- Modelled from the spec: the I-VT velocity-threshold detector.  A sample is
"moving" when its channel speed exceeds `t` (speedSq > t * t), else
"fixating"; contiguous fixating runs of duration at least `minDur` become
fixation events. -/
def ivt (t : ℚ) (minDur : Nat) (v : List (ℚ × ℚ)) : List Event :=
  mkEvents "fixation" minDur (runs (fun u => decide (speedSq u ≤ t * t)) v)

/-- Median of a list of rationals: middle element of the sorted list, mean of
the two middle elements for even length, 0 for the empty list. -/
def medianQ (l : List ℚ) : ℚ :=
  let s := List.insertionSort (fun a b => a ≤ b) l
  let n := l.length
  if n = 0 then 0
  else if n % 2 = 1 then s.getD (n / 2) 0
  else (s.getD (n / 2 - 1) 0 + s.getD (n / 2) 0) / 2

/-- Modelled from the spec: a median-based robust noise estimate of the
velocity signal (median absolute deviation of the squared speeds). -/
def noiseEstimateSq (v : List (ℚ × ℚ)) : ℚ :=
  let sp := v.map speedSq
  let m := medianQ sp
  medianQ (sp.map (fun x => |x - m|))

/-- Modelled from the spec: the micro-saccade detector.  The velocity
threshold is a multiple `mult` of the median-based noise estimate of the
velocity signal; samples strictly above the threshold are saccadic, and
contiguous saccadic runs pass the same minimum_duration filter as I-VT.
Events are written under the name "saccade", as shown by the tutorial
notebook filtering the event table with name equal to "saccade" after a
microsaccades run. -/
def microsaccades (mult : ℚ) (minDur : Nat) (v : List (ℚ × ℚ)) : List Event :=
  let lamSq := mult * noiseEstimateSq v
  mkEvents "saccade" minDur (runs (fun u => decide (lamSq < speedSq u)) v)

/-- Running maximum of `f` over a nonempty sample list given as head and
tail, computed as a streaming fold. -/
def foldMax (f : ℚ × ℚ → ℚ) (q : ℚ × ℚ) (rest : List (ℚ × ℚ)) : ℚ :=
  rest.foldl (fun m u => max m (f u)) (f q)

/-- Running minimum of `f` over a nonempty sample list given as head and
tail, computed as a streaming fold. -/
def foldMin (f : ℚ × ℚ → ℚ) (q : ℚ × ℚ) (rest : List (ℚ × ℚ)) : ℚ :=
  rest.foldl (fun m u => min m (f u)) (f q)

/-- Modelled from the spec: spatial dispersion of a set of samples, the sum
over the x and y components of (max - min) within the window; 0 for the
empty window. -/
def dispersion (pts : List (ℚ × ℚ)) : ℚ :=
  match pts with
  | [] => 0
  | q :: rest =>
      (foldMax Prod.fst q rest - foldMin Prod.fst q rest)
        + (foldMax Prod.snd q rest - foldMin Prod.snd q rest)

/-- Modelled from the spec: squared amplitude of an event, the squared
Euclidean distance between the positions at the first and last included
samples (0 for an empty sample list).  The amplitude itself is the square
root of this quantity, so amplitude = 0 iff amplitudeSq = 0. -/
def amplitudeSq (pts : List (ℚ × ℚ)) : ℚ :=
  match pts.head?, pts.getLast? with
  | some p0, some p1 => (p1.1 - p0.1) ^ 2 + (p1.2 - p0.2) ^ 2
  | _, _ => 0

/-- Samples of a Trial's signal covered by an event's half-open interval
[onset, offset). -/
def eventSamples (sig : List (ℚ × ℚ)) (e : Event) : List (ℚ × ℚ) :=
  (sig.drop e.onset).take (e.offset - e.onset)

/-- Modelled from the spec: number of further samples greedily absorbed into
the I-DT window `w` while the spatial dispersion stays below the
threshold. -/
def growCount (th : ℚ) (w : List (ℚ × ℚ)) : List (ℚ × ℚ) → Nat
  | [] => 0
  | q :: rest =>
      if dispersion (w ++ [q]) < th then 1 + growCount th (w ++ [q]) rest else 0

/-- Fuel-indexed worker for the I-DT window decomposition; the fuel bounds
the number of windows and is set to the trial length, which always
suffices because every window consumes at least one sample. -/
def idtChunksF (th : ℚ) : Nat → List (ℚ × ℚ) → List (List (ℚ × ℚ))
  | 0, _ => []
  | _, [] => []
  | fuel + 1, q :: rest =>
      let k := growCount th [q] rest
      ([q] ++ rest.take k) :: idtChunksF th fuel (rest.drop k)

/-- Modelled from the spec: the I-DT greedy window decomposition.  Each
window starts at the first unconsumed sample and grows while the dispersion
stays below the threshold; once growth stalls the window is emitted and the
next window starts after it. -/
def idtChunks (th : ℚ) (v : List (ℚ × ℚ)) : List (List (ℚ × ℚ)) :=
  idtChunksF th v.length v

/-- Half-open index intervals of a list of consecutive chunks, the first one
starting at index `i`. -/
def chunkIntervals (i : Nat) : List (List (ℚ × ℚ)) → List (Nat × Nat)
  | [] => []
  | c :: cs => (i, i + c.length) :: chunkIntervals (i + c.length) cs

/-- Modelled from the spec: the I-DT dispersion-threshold detector.  The
greedy windows become fixation events, subject to the common
minimum_duration filter. -/
def idt (th : ℚ) (minDur : Nat) (v : List (ℚ × ℚ)) : List Event :=
  mkEvents "fixation" minDur (chunkIntervals 0 (idtChunks th v))

/-- Two events overlap unless one's half-open interval ends before the other
starts; the spec only forbids overlap between intervals carrying the same
name. -/
def NonOverlap (e1 e2 : Event) : Prop :=
  e1.name = e2.name → e1.offset ≤ e2.onset ∨ e2.offset ≤ e1.onset

/-- Modelled from the spec: the error taxonomy of the pipeline. -/
inductive PmError where
  | configurationError : PmError
  | valueError : PmError
  | unknownOperationError : PmError
  | signalMissingError : PmError
deriving DecidableEq, Repr

/-- A column of 2-d samples (pixel, position, velocity or acceleration
pairs). -/
abbrev Column := List (ℚ × ℚ)

/-- A per-trial signal table: named columns in order. -/
abbrev Frame := List (String × Column)

/-- First column with the given name, if any. -/
def getCol : Frame → String → Option Column
  | [], _ => none
  | (n, d) :: rest, nm => if n = nm then some d else getCol rest nm

/-- Modelled from the spec: write an output column, overwriting a same-named
column in place rather than duplicating it; a fresh name is appended. -/
def setCol : Frame → String → Column → Frame
  | [], nm, c => [(nm, c)]
  | (n, d) :: rest, nm, c =>
      if n = nm then (nm, c) :: rest else (n, d) :: setCol rest nm c

/-- Raw Experiment Geometry configuration record: every field may be missing
(as in a partially filled dataset definition). -/
structure ExperimentConfig where
  screen_width_px : Option ℚ
  screen_height_px : Option ℚ
  screen_width_cm : Option ℚ
  screen_height_cm : Option ℚ
  distance_cm : Option ℚ
  origin : Option String
  sampling_rate : Option ℚ
deriving DecidableEq, Repr

/-- A complete, validated Experiment Geometry. -/
structure Geometry where
  screen_width_px : ℚ
  screen_height_px : ℚ
  screen_width_cm : ℚ
  screen_height_cm : ℚ
  distance_cm : ℚ
  origin : String
  sampling_rate : ℚ
deriving DecidableEq, Repr

/-- Modelled from the spec: the Geometry Calibrator's validation, failing
with a ConfigurationError if any required geometry field is missing. -/
def validateGeometry (c : ExperimentConfig) : Except PmError Geometry :=
  match c.screen_width_px, c.screen_height_px, c.screen_width_cm,
      c.screen_height_cm, c.distance_cm, c.origin, c.sampling_rate with
  | some wpx, some hpx, some wcm, some hcm, some dcm, some o, some sr =>
      .ok ⟨wpx, hpx, wcm, hcm, dcm, o, sr⟩
  | _, _, _, _, _, _, _ => .error .configurationError

/-- Modelled from the spec: pix2deg converts the pixel column to a position
column in degrees of visual angle and adds it to the Trial.  The
arctangent-based per-sample conversion is abstracted as the `conv`
parameter. -/
def pix2deg (conv : Geometry → ℚ × ℚ → ℚ × ℚ) (cfg : ExperimentConfig)
    (fr : Frame) : Except PmError Frame :=
  match validateGeometry cfg with
  | .error e => .error e
  | .ok g =>
      match getCol fr "pixel" with
      | none => .error .signalMissingError
      | some px => .ok (setCol fr "position" (px.map (conv g)))

/-- The symmetrically-truncated sliding windows of the differentiation
filter: the window at index i covers indices [i - wl/2, i + wl/2]
intersected with the trial, never reading past trial boundaries. -/
def savgolWindows (wl : Nat) (pos : Column) : List Column :=
  (List.range pos.length).map
    (fun i => (pos.take (i + wl / 2 + 1)).drop (i - wl / 2))

/-- Modelled from the spec: the parameter-validation condition of the
differentiation filters over a trial of `n` samples — window_length must be
odd, no longer than the trial, and at least degree + 1 with degree at
least 1. -/
def badWindow (degree wl n : Nat) : Prop :=
  wl % 2 = 0 ∨ n < wl ∨ degree = 0 ∨ wl < degree + 1

instance (degree wl n : Nat) : Decidable (badWindow degree wl n) :=
  inferInstanceAs (Decidable (_ ∨ _ ∨ _ ∨ _))

/-- Modelled from the spec: the pos2vel differentiation filter.  Validates
that window_length is odd, at least degree + 1 with degree at least 1, and
no longer than the trial, then writes a velocity column computed by applying
the polynomial-fitting kernel (abstracted as `kernel`) to each truncated
window. -/
def pos2vel (kernel : Column → ℚ × ℚ) (degree wl : Nat)
    (fr : Frame) : Except PmError Frame :=
  match getCol fr "position" with
  | none => .error .signalMissingError
  | some pos =>
      if badWindow degree wl pos.length then
        .error .valueError
      else
        .ok (setCol fr "velocity" ((savgolWindows wl pos).map kernel))

/-- Modelled from the spec: the pos2acc differentiation filter, identical to
pos2vel except that it writes an acceleration column (second derivative
kernel). -/
def pos2acc (kernel : Column → ℚ × ℚ) (degree wl : Nat)
    (fr : Frame) : Except PmError Frame :=
  match getCol fr "position" with
  | none => .error .signalMissingError
  | some pos =>
      if badWindow degree wl pos.length then
        .error .valueError
      else
        .ok (setCol fr "acceleration" ((savgolWindows wl pos).map kernel))

/-- A Trial owned by the orchestrator: identifier plus signal table. -/
structure TrialData where
  id : Nat
  frame : Frame

/-- Modelled from the spec: how a batch pass ends abnormally, either on a
configuration-level error detected before any trial processing, or because
every trial failed (the accumulated, trial-attributed failures are
carried). -/
inductive BatchError where
  | config : PmError → BatchError
  | allFailed : List (Nat × PmError) → BatchError

/-- Modelled from the spec: process each trial independently, pairing every
result (success or failure) with the originating trial's identifier, in
trial order. -/
def processTrials (step : TrialData → Except PmError Frame) :
    List TrialData → List (Nat × Except PmError Frame)
  | [] => []
  | t :: rest => (t.id, step t) :: processTrials step rest

/-- The accumulated failures of a batch pass, attributed to their trials. -/
def failuresOf (rs : List (Nat × Except PmError Frame)) : List (Nat × PmError) :=
  rs.filterMap (fun r => match r.2 with
    | .error e => some (r.1, e)
    | .ok _ => none)

/-- Modelled from the spec: the Pipeline Orchestrator's batch pass.  A
configuration-level error aborts immediately, before any trial processing;
otherwise every trial is processed, per-trial errors are caught and
accumulated, and the pass fails in aggregate only when every trial
failed. -/
def runBatch (check : Option PmError) (step : TrialData → Except PmError Frame)
    (trials : List TrialData) :
    Except BatchError (List (Nat × Except PmError Frame)) :=
  match check with
  | some e => .error (.config e)
  | none =>
      let rs := processTrials step trials
      let fl := failuresOf rs
      if 0 < rs.length ∧ fl.length = rs.length then .error (.allFailed fl)
      else .ok rs

/-- The experiment record of the bundled CopCo dataset definition
(`src/pymovements/datasets/copco.yaml`): 1920 x 1080 px, 59.0 x 33.5 cm,
distance 85 cm, origin "center", sampling rate 1000 Hz. -/
def copcoExperiment : ExperimentConfig :=
  ⟨some 1920, some 1080, some 59, some (67 / 2), some 85, some "center",
    some 1000⟩

/-- The experiment record of the bundled EMTeC dataset definition
(`src/pymovements/datasets/emtec.yaml`): 1280 x 1024 px, 38.2 x 30.2 cm,
distance 60 cm, origin "center", sampling rate 2000 Hz. -/
def emtecExperiment : ExperimentConfig :=
  ⟨some 1280, some 1024, some (191 / 5), some (151 / 5), some 60,
    some "center", some 2000⟩

/-- The experiment record of the bundled GazeBaseVR dataset definition
(`src/pymovements/datasets/gazebasevr.yaml`): 1680 x 1050 px, 47.4 x 29.7 cm,
distance 55 cm, origin "center", sampling rate 250 Hz. -/
def gazebasevrExperiment : ExperimentConfig :=
  ⟨some 1680, some 1050, some (237 / 5), some (297 / 10), some 55,
    some "center", some 250⟩

end Pym

namespace Pym

theorem getCol_setCol_same (fr : Frame) (nm : String) (c : Column) :
    getCol (setCol fr nm c) nm = some c := by
  induction fr with
  | nil => simp [setCol, getCol]
  | cons hd tl ih =>
      obtain ⟨n, dcol⟩ := hd
      by_cases hn : n = nm
      · simp [setCol, getCol, hn]
      · simp [setCol, getCol, hn, ih]

theorem getCol_setCol_ne (fr : Frame) {nm nm2 : String} (c : Column)
    (h : nm ≠ nm2) : getCol (setCol fr nm c) nm2 = getCol fr nm2 := by
  induction fr with
  | nil => simp [setCol, getCol, h]
  | cons hd tl ih =>
      obtain ⟨n, dcol⟩ := hd
      by_cases hn : n = nm
      · subst hn
        simp [setCol, getCol, h]
      · by_cases hn2 : n = nm2
        · subst hn2
          simp [setCol, getCol, hn]
        · simp [setCol, getCol, hn, hn2, ih]

theorem setCol_setCol (fr : Frame) (nm : String) (c : Column) :
    setCol (setCol fr nm c) nm c = setCol fr nm c := by
  induction fr with
  | nil => simp [setCol]
  | cons hd tl ih =>
      obtain ⟨n, dcol⟩ := hd
      by_cases hn : n = nm
      · simp [setCol, hn]
      · simp [setCol, hn, ih]

end Pym

namespace Pym

theorem pix2deg_ok_iff {conv : Geometry → ℚ × ℚ → ℚ × ℚ}
    {cfg : ExperimentConfig} {fr fr2 : Frame} :
    pix2deg conv cfg fr = .ok fr2 ↔
    ∃ g px, validateGeometry cfg = .ok g ∧ getCol fr "pixel" = some px
      ∧ fr2 = setCol fr "position" (px.map (conv g)) := by
  unfold pix2deg
  cases hv : validateGeometry cfg with
  | error e => simp
  | ok g =>
      cases hpx : getCol fr "pixel" with
      | none => simp
      | some px => simp [eq_comm]

theorem pos2vel_ok_iff {kernel : Column → ℚ × ℚ} {degree wl : Nat}
    {fr fr3 : Frame} :
    pos2vel kernel degree wl fr = .ok fr3 ↔
    ∃ pos, getCol fr "position" = some pos
      ∧ ¬badWindow degree wl pos.length
      ∧ fr3 = setCol fr "velocity" ((savgolWindows wl pos).map kernel) := by
  unfold pos2vel
  cases hpos : getCol fr "position" with
  | none => simp
  | some pos =>
      by_cases hc : badWindow degree wl pos.length
      · simp [eq_true hc]
      · simp [hc, eq_comm]

theorem pos2acc_ok_iff {kernel : Column → ℚ × ℚ} {degree wl : Nat}
    {fr fr4 : Frame} :
    pos2acc kernel degree wl fr = .ok fr4 ↔
    ∃ pos, getCol fr "position" = some pos
      ∧ ¬badWindow degree wl pos.length
      ∧ fr4 = setCol fr "acceleration" ((savgolWindows wl pos).map kernel) := by
  unfold pos2acc
  cases hpos : getCol fr "position" with
  | none => simp
  | some pos =>
      by_cases hc : badWindow degree wl pos.length
      · simp [eq_true hc]
      · simp [hc, eq_comm]

/-- Claim C4: applying pix2deg or a differentiation filter (pos2vel or
pos2acc) twice in a row with identical parameters yields exactly the same
table as applying it once; the second application overwrites the same-named
output column rather than adding a duplicate or shifted column, and the two
results are byte-identical. -/
theorem C4_reapply_idempotent : ∀ (conv : Geometry → ℚ × ℚ → ℚ × ℚ)
    (cfg : ExperimentConfig) (kernel : Column → ℚ × ℚ) (degree wl : Nat)
    (fr fr2 fr3 fr4 : Frame),
    (pix2deg conv cfg fr = .ok fr2 → pix2deg conv cfg fr2 = .ok fr2)
    ∧ (pos2vel kernel degree wl fr = .ok fr3 →
        pos2vel kernel degree wl fr3 = .ok fr3)
    ∧ (pos2acc kernel degree wl fr = .ok fr4 →
        pos2acc kernel degree wl fr4 = .ok fr4) := by
  intro conv cfg kernel degree wl fr fr2 fr3 fr4
  refine ⟨?_, ?_, ?_⟩
  · intro h
    rw [pix2deg_ok_iff] at h
    obtain ⟨g, px, hv, hpx, rfl⟩ := h
    rw [pix2deg_ok_iff]
    refine ⟨g, px, hv, ?_, (setCol_setCol fr _ _).symm⟩
    rw [getCol_setCol_ne fr _ (by decide), hpx]
  · intro h
    rw [pos2vel_ok_iff] at h
    obtain ⟨pos, hpos, hc, rfl⟩ := h
    rw [pos2vel_ok_iff]
    refine ⟨pos, ?_, hc, (setCol_setCol fr _ _).symm⟩
    rw [getCol_setCol_ne fr _ (by decide), hpos]
  · intro h
    rw [pos2acc_ok_iff] at h
    obtain ⟨pos, hpos, hc, rfl⟩ := h
    rw [pos2acc_ok_iff]
    refine ⟨pos, ?_, hc, (setCol_setCol fr _ _).symm⟩
    rw [getCol_setCol_ne fr _ (by decide), hpos]

/-- Claim C5: a differentiation-filter call (pos2vel or pos2acc) fails with a
ValueError whenever window_length is even or window_length exceeds the number
of samples in the Trial, so no output column is produced in that case. -/
theorem C5_window_length_validation : ∀ (kernel : Column → ℚ × ℚ)
    (degree wl : Nat) (fr : Frame) (pos : Column),
    getCol fr "position" = some pos → wl % 2 = 0 ∨ pos.length < wl →
    pos2vel kernel degree wl fr = .error .valueError
    ∧ pos2acc kernel degree wl fr = .error .valueError := by
  intro kernel degree wl fr pos hpos hbad
  have hcond : badWindow degree wl pos.length := by
    unfold badWindow
    tauto
  constructor
  · simp [pos2vel, hpos, eq_true hcond]
  · simp [pos2acc, hpos, eq_true hcond]

/-- Claim C8: for a Trial with a pixel column and complete Experiment
Geometry, pix2deg succeeds, adds the position column (the degree-of-visual-
angle conversion of the pixel samples) to the Trial, and leaves the existing
pixel column present and unchanged. -/
theorem C8_pix2deg_adds_position : ∀ (conv : Geometry → ℚ × ℚ → ℚ × ℚ)
    (cfg : ExperimentConfig) (g : Geometry) (fr : Frame) (px : Column),
    validateGeometry cfg = .ok g → getCol fr "pixel" = some px →
    pix2deg conv cfg fr = .ok (setCol fr "position" (px.map (conv g)))
    ∧ getCol (setCol fr "position" (px.map (conv g))) "pixel" = some px
    ∧ getCol (setCol fr "position" (px.map (conv g))) "position"
        = some (px.map (conv g)) := by
  intro conv cfg g fr px hv hpx
  refine ⟨?_, ?_, getCol_setCol_same fr _ _⟩
  · rw [pix2deg_ok_iff]
    exact ⟨g, px, hv, hpx, rfl⟩
  · rw [getCol_setCol_ne fr _ (by decide), hpx]

end Pym

section C9sec

attribute [local semireducible] Rat.add Rat.mul Rat.sub Rat.inv Rat.ofScientific

namespace Pym

/-- Claim C9: every bundled dataset definition (CopCo, EMTeC, GazeBaseVR)
supplies a complete experiment geometry record (screen width and height in
pixels and centimeters, viewing distance, origin, sampling rate), each with
the "center" origin convention, so the Geometry Calibrator's missing-field
ConfigurationError branch is unreachable for these configurations. -/
theorem C9_bundled_datasets_complete_geometry :
    validateGeometry copcoExperiment
      = .ok ⟨1920, 1080, 59, 67 / 2, 85, "center", 1000⟩
    ∧ validateGeometry emtecExperiment
      = .ok ⟨1280, 1024, 191 / 5, 151 / 5, 60, "center", 2000⟩
    ∧ validateGeometry gazebasevrExperiment
      = .ok ⟨1680, 1050, 237 / 5, 297 / 10, 55, "center", 250⟩
    ∧ copcoExperiment.origin = some "center"
    ∧ emtecExperiment.origin = some "center"
    ∧ gazebasevrExperiment.origin = some "center" :=
  ⟨rfl, rfl, rfl, rfl, rfl, rfl⟩

end Pym

end C9sec

namespace Pym

/-- Concrete instantiation of the C4 idempotence theorem: re-running
pix2deg, pos2vel and pos2acc on their own outputs leaves the tables
unchanged. -/
theorem C4_reapply_idempotent_witness :
    pix2deg (fun _ u => u) copcoExperiment
        [("pixel", [((1 : ℚ), (2 : ℚ))]), ("position", [((1 : ℚ), (2 : ℚ))])]
      = .ok [("pixel", [((1 : ℚ), (2 : ℚ))]), ("position", [((1 : ℚ), (2 : ℚ))])]
    ∧ pos2vel (fun _ => ((0 : ℚ), (0 : ℚ))) 1 3
        [("position", [((0 : ℚ), (0 : ℚ)), ((0 : ℚ), (0 : ℚ)), ((0 : ℚ), (0 : ℚ))]),
          ("velocity", [((0 : ℚ), (0 : ℚ)), ((0 : ℚ), (0 : ℚ)), ((0 : ℚ), (0 : ℚ))])]
      = .ok [("position", [((0 : ℚ), (0 : ℚ)), ((0 : ℚ), (0 : ℚ)), ((0 : ℚ), (0 : ℚ))]),
          ("velocity", [((0 : ℚ), (0 : ℚ)), ((0 : ℚ), (0 : ℚ)), ((0 : ℚ), (0 : ℚ))])]
    ∧ pos2acc (fun _ => ((0 : ℚ), (0 : ℚ))) 1 3
        [("position", [((0 : ℚ), (0 : ℚ)), ((0 : ℚ), (0 : ℚ)), ((0 : ℚ), (0 : ℚ))]),
          ("acceleration", [((0 : ℚ), (0 : ℚ)), ((0 : ℚ), (0 : ℚ)), ((0 : ℚ), (0 : ℚ))])]
      = .ok [("position", [((0 : ℚ), (0 : ℚ)), ((0 : ℚ), (0 : ℚ)), ((0 : ℚ), (0 : ℚ))]),
          ("acceleration", [((0 : ℚ), (0 : ℚ)), ((0 : ℚ), (0 : ℚ)), ((0 : ℚ), (0 : ℚ))])] :=
  ⟨(C4_reapply_idempotent (fun _ u => u) copcoExperiment
      (fun _ => ((0 : ℚ), (0 : ℚ))) 1 3 [("pixel", [(1, 2)])]
      [("pixel", [(1, 2)]), ("position", [(1, 2)])] [] []).1 rfl,
    (C4_reapply_idempotent (fun _ u => u) copcoExperiment
      (fun _ => ((0 : ℚ), (0 : ℚ))) 1 3 [("position", [(0, 0), (0, 0), (0, 0)])]
      [] [("position", [(0, 0), (0, 0), (0, 0)]),
        ("velocity", [(0, 0), (0, 0), (0, 0)])] []).2.1 rfl,
    (C4_reapply_idempotent (fun _ u => u) copcoExperiment
      (fun _ => ((0 : ℚ), (0 : ℚ))) 1 3 [("position", [(0, 0), (0, 0), (0, 0)])]
      [] [] [("position", [(0, 0), (0, 0), (0, 0)]),
        ("acceleration", [(0, 0), (0, 0), (0, 0)])]).2.2 rfl⟩

/-- Concrete instantiation of the C5 validation theorem: an even window
length of 4 on a 2-sample trial yields a ValueError from both filters. -/
theorem C5_window_length_validation_witness :
    pos2vel (fun _ => ((0 : ℚ), (0 : ℚ))) 1 4
        [("position", [((0 : ℚ), (0 : ℚ)), ((0 : ℚ), (0 : ℚ))])]
      = .error .valueError
    ∧ pos2acc (fun _ => ((0 : ℚ), (0 : ℚ))) 1 4
        [("position", [((0 : ℚ), (0 : ℚ)), ((0 : ℚ), (0 : ℚ))])]
      = .error .valueError :=
  C5_window_length_validation (fun _ => ((0 : ℚ), (0 : ℚ))) 1 4
    [("position", [(0, 0), (0, 0)])] [(0, 0), (0, 0)] rfl (Or.inl rfl)

/-- Concrete instantiation of the C8 frame-effect theorem: pix2deg on a
one-sample trial adds the position column and keeps the pixel column. -/
theorem C8_pix2deg_adds_position_witness :
    pix2deg (fun _ u => u) copcoExperiment [("pixel", [((1 : ℚ), (2 : ℚ))])]
      = .ok [("pixel", [((1 : ℚ), (2 : ℚ))]), ("position", [((1 : ℚ), (2 : ℚ))])]
    ∧ getCol [("pixel", [((1 : ℚ), (2 : ℚ))]), ("position", [((1 : ℚ), (2 : ℚ))])]
        "pixel" = some [((1 : ℚ), (2 : ℚ))]
    ∧ getCol [("pixel", [((1 : ℚ), (2 : ℚ))]), ("position", [((1 : ℚ), (2 : ℚ))])]
        "position" = some [((1 : ℚ), (2 : ℚ))] :=
  C8_pix2deg_adds_position (fun _ u => u) copcoExperiment
    ⟨1920, 1080, 59, 67 / 2, 85, "center", 1000⟩ [("pixel", [(1, 2)])]
    [(1, 2)] rfl rfl

end Pym

namespace Pym

theorem processTrials_eq_map (step : TrialData → Except PmError Frame) :
    ∀ ts : List TrialData,
      processTrials step ts = ts.map (fun t => (t.id, step t)) := by
  intro ts
  induction ts with
  | nil => rfl
  | cons t rest ih => simp [processTrials, ih]

theorem failuresOf_length_le (rs : List (Nat × Except PmError Frame)) :
    (failuresOf rs).length ≤ rs.length :=
  List.length_filterMap_le _ _

theorem failuresOf_all_iff : ∀ rs : List (Nat × Except PmError Frame),
    (failuresOf rs).length = rs.length ↔ ∀ r ∈ rs, ∃ e, r.2 = .error e := by
  intro rs
  induction rs with
  | nil => simp [failuresOf]
  | cons r rest ih =>
      obtain ⟨i, res⟩ := r
      cases res with
      | ok fr =>
          have hle := failuresOf_length_le rest
          have hf : failuresOf ((i, Except.ok fr) :: rest) = failuresOf rest := by
            simp [failuresOf]
          rw [hf]
          simp only [List.length_cons]
          constructor
          · intro h
            exfalso
            omega
          · intro h
            obtain ⟨e, he⟩ := h (i, Except.ok fr) (List.mem_cons_self _ _)
            simp at he
      | error e =>
          have hf : failuresOf ((i, Except.error e) :: rest)
              = (i, e) :: failuresOf rest := by
            simp [failuresOf]
          rw [hf]
          simp only [List.length_cons]
          constructor
          · intro h rr hrr
            rcases List.mem_cons.mp hrr with h1 | h2
            · exact ⟨e, by rw [h1]⟩
            · exact (ih.mp (by omega)) rr h2
          · intro h
            have h2 : (failuresOf rest).length = rest.length :=
              ih.mpr (fun rr hrr => h rr (List.mem_cons_of_mem _ hrr))
            omega

/-- Claim C7: during a batch pass, a configuration-level error aborts before
any trial processing; otherwise each trial is processed independently with
its result attributed to its identifier, an error in one trial neither
aborts the pass nor disturbs the other trials' results, failures are
accumulated, and the pass as a whole fails only when every trial failed. -/
theorem C7_batch_error_policy : ∀ (check : Option PmError)
    (step : TrialData → Except PmError Frame) (trials : List TrialData),
    (∀ e, check = some e → runBatch check step trials = .error (.config e))
    ∧ (check = none →
        processTrials step trials = trials.map (fun t => (t.id, step t)))
    ∧ (check = none → (∃ t ∈ trials, ∃ fr, step t = .ok fr) →
        runBatch check step trials
          = .ok (trials.map (fun t => (t.id, step t))))
    ∧ (check = none → trials ≠ [] → (∀ t ∈ trials, ∃ er, step t = .error er) →
        runBatch check step trials
          = .error (.allFailed (failuresOf (processTrials step trials)))
        ∧ (failuresOf (processTrials step trials)).length = trials.length) := by
  intro check step trials
  refine ⟨?_, fun _ => processTrials_eq_map step trials, ?_, ?_⟩
  · intro e he
    rw [he]
    rfl
  · intro hn ⟨t, ht, fr, hok⟩
    subst hn
    unfold runBatch
    have hmem : (t.id, step t) ∈ processTrials step trials := by
      rw [processTrials_eq_map]
      exact List.mem_map.mpr ⟨t, ht, rfl⟩
    have hnotall : ¬((failuresOf (processTrials step trials)).length
        = (processTrials step trials).length) := by
      intro hall
      obtain ⟨e, he⟩ := (failuresOf_all_iff _).mp hall _ hmem
      rw [hok] at he
      cases he
    rw [if_neg (by intro hcond; exact hnotall hcond.2)]
    rw [processTrials_eq_map]
  · intro hn hne hfail
    subst hn
    unfold runBatch
    have hlen : processTrials step trials
        = trials.map (fun t => (t.id, step t)) := processTrials_eq_map step trials
    have hall : (failuresOf (processTrials step trials)).length
        = (processTrials step trials).length := by
      apply (failuresOf_all_iff _).mpr
      intro r hr
      rw [hlen] at hr
      obtain ⟨t, ht, rfl⟩ := List.mem_map.mp hr
      exact hfail t ht
    have hpos : 0 < (processTrials step trials).length := by
      rw [hlen, List.length_map]
      exact List.length_pos.mpr hne
    rw [if_pos ⟨hpos, hall⟩]
    refine ⟨rfl, ?_⟩
    rw [hall, hlen, List.length_map]

/-- Concrete instantiation of the C7 theorem: a configuration error aborts
the pass before any trial processing. -/
theorem C7_batch_error_policy_witness :
    runBatch (some .configurationError) (fun t => .ok t.frame) []
      = .error (.config .configurationError) :=
  (C7_batch_error_policy (some .configurationError)
    (fun t => .ok t.frame) []).1 .configurationError rfl

end Pym

namespace Pym

theorem mem_mkEvents {nm : String} {md : Nat} {rs : List (Nat × Nat)}
    {e : Event} :
    e ∈ mkEvents nm md rs ↔
    ∃ r ∈ rs, e = ⟨nm, r.1, r.2, r.2 - r.1⟩ ∧ md ≤ r.2 - r.1 := by
  unfold mkEvents
  rw [List.mem_filter]
  simp only [List.mem_map, decide_eq_true_eq]
  constructor
  · rintro ⟨⟨r, hr, rfl⟩, hmd⟩
    exact ⟨r, hr, rfl, hmd⟩
  · rintro ⟨r, hr, rfl, hmd⟩
    exact ⟨⟨r, hr, rfl⟩, hmd⟩

theorem mkEvents_minDur {nm : String} {md : Nat} {rs : List (Nat × Nat)}
    {e : Event} (h : e ∈ mkEvents nm md rs) :
    md ≤ e.duration ∧ e ∈ mkEvents nm 0 rs := by
  obtain ⟨r, hr, rfl, hmd⟩ := mem_mkEvents.mp h
  exact ⟨hmd, mem_mkEvents.mpr ⟨r, hr, rfl, Nat.zero_le _⟩⟩

theorem mkEvents_name {nm : String} {md : Nat} {rs : List (Nat × Nat)}
    {e : Event} (h : e ∈ mkEvents nm md rs) : e.name = nm := by
  obtain ⟨r, hr, rfl, hmd⟩ := mem_mkEvents.mp h
  rfl

/-- Claim C1: for every detector run (I-VT, I-DT, microsaccades), every
emitted event has duration at least minimum_duration (shorter events are
dropped), and for the same raw per-sample classification, running with
minimum_duration = 0 emits a superset of the events emitted with any
stricter threshold. -/
theorem C1_minimum_duration_filter : ∀ (t mult th : ℚ) (md : Nat)
    (v : List (ℚ × ℚ)) (e : Event),
    (e ∈ ivt t md v → md ≤ e.duration ∧ e ∈ ivt t 0 v)
    ∧ (e ∈ idt th md v → md ≤ e.duration ∧ e ∈ idt th 0 v)
    ∧ (e ∈ microsaccades mult md v → md ≤ e.duration
        ∧ e ∈ microsaccades mult 0 v) :=
  fun _ _ _ _ _ _ =>
    ⟨fun h => mkEvents_minDur h, fun h => mkEvents_minDur h,
      fun h => mkEvents_minDur h⟩

/-- Claim C10: events emitted by the microsaccades detector are written
under the name "saccade", so filtering an event table holding an I-VT run
and a microsaccades run by the name "saccade" selects exactly the events of
the microsaccades run. -/
theorem C10_microsaccade_events_named_saccade : ∀ (t : ℚ) (mdF : Nat)
    (mult : ℚ) (mdS : Nat) (v : List (ℚ × ℚ)),
    (ivt t mdF v ++ microsaccades mult mdS v).filter
        (fun e => e.name == "saccade")
      = microsaccades mult mdS v := by
  intro t mdF mult mdS v
  rw [List.filter_append]
  have h1 : (ivt t mdF v).filter (fun e => e.name == "saccade") = [] := by
    rw [List.filter_eq_nil_iff]
    intro e he
    have hn : e.name = "fixation" := mkEvents_name he
    simp [hn]
  have h2 : (microsaccades mult mdS v).filter (fun e => e.name == "saccade")
      = microsaccades mult mdS v := by
    rw [List.filter_eq_self]
    intro e he
    have hn : e.name = "saccade" := mkEvents_name he
    simp [hn]
  rw [h1, h2, List.nil_append]

end Pym

section C1sec

attribute [local semireducible] Rat.add Rat.mul Rat.sub Rat.inv Rat.ofScientific

namespace Pym

/-- Concrete instantiation of the C1 theorem on a four-sample trial for all
three detectors. -/
theorem C1_minimum_duration_filter_witness :
    (2 ≤ (⟨"fixation", 0, 2, 2⟩ : Event).duration
      ∧ (⟨"fixation", 0, 2, 2⟩ : Event)
        ∈ ivt 1 0 [((0 : ℚ), (0 : ℚ)), (0, 0), (3, 3), (3, 3)])
    ∧ (2 ≤ (⟨"fixation", 0, 2, 2⟩ : Event).duration
      ∧ (⟨"fixation", 0, 2, 2⟩ : Event)
        ∈ idt 1 0 [((0 : ℚ), (0 : ℚ)), (0, 0), (3, 3), (3, 3)])
    ∧ (2 ≤ (⟨"saccade", 2, 4, 2⟩ : Event).duration
      ∧ (⟨"saccade", 2, 4, 2⟩ : Event)
        ∈ microsaccades 1 0 [((0 : ℚ), (0 : ℚ)), (0, 0), (3, 3), (3, 3)]) :=
  ⟨(C1_minimum_duration_filter 1 1 1 2 [(0, 0), (0, 0), (3, 3), (3, 3)]
      ⟨"fixation", 0, 2, 2⟩).1 (by decide),
    (C1_minimum_duration_filter 1 1 1 2 [(0, 0), (0, 0), (3, 3), (3, 3)]
      ⟨"fixation", 0, 2, 2⟩).2.1 (by decide),
    (C1_minimum_duration_filter 1 1 1 2 [(0, 0), (0, 0), (3, 3), (3, 3)]
      ⟨"saccade", 2, 4, 2⟩).2.2 (by decide)⟩

end Pym

end C1sec

namespace Pym

theorem runsAux_onset_bound {α : Type} (p : α → Bool) :
    ∀ (l : List α) (i : Nat) (cur : Option Nat) (r : Nat × Nat),
      (∀ s, cur = some s → s ≤ i) →
      r ∈ runsAux p l i cur →
      (cur = none → i ≤ r.1) ∧ (∀ s, cur = some s → s ≤ r.1) := by
  intro l
  induction l with
  | nil =>
      intro i cur r hcur hr
      cases cur with
      | none => simp [runsAux] at hr
      | some s =>
          simp [runsAux] at hr
          subst hr
          refine ⟨(fun h => nomatch h), fun s2 hs2 => ?_⟩
          injection hs2 with h
          omega
  | cons x rest ih =>
      intro i cur r hcur hr
      cases cur with
      | none =>
          by_cases hp : p x
          · simp only [runsAux, if_pos hp] at hr
            have hb := ih (i + 1) (some i) r
              (by intro s hs; injection hs with h; omega) hr
            refine ⟨(fun _ => hb.2 i rfl), fun s2 hs2 => nomatch hs2⟩
          · simp only [runsAux, if_neg hp] at hr
            have hb := ih (i + 1) none r (fun _ hs => nomatch hs) hr
            refine ⟨(fun _ => ?_), fun s2 hs2 => nomatch hs2⟩
            have h1 := hb.1 rfl
            omega
      | some s =>
          by_cases hp : p x
          · simp only [runsAux, if_pos hp] at hr
            have hb := ih (i + 1) (some s) r
              (by intro s2 hs2
                  injection hs2 with h
                  have h2 := hcur s rfl
                  omega) hr
            refine ⟨(fun h => nomatch h), fun s2 hs2 => ?_⟩
            injection hs2 with h
            have h2 := hb.2 s rfl
            omega
          · simp only [runsAux, if_neg hp] at hr
            rcases List.mem_cons.mp hr with h1 | h2
            · subst h1
              refine ⟨(fun h => nomatch h), fun s2 hs2 => ?_⟩
              injection hs2 with h
              omega
            · have hb := ih (i + 1) none r (fun _ hs2 => nomatch hs2) h2
              refine ⟨(fun h => nomatch h), fun s2 hs2 => ?_⟩
              injection hs2 with h
              have h1 := hb.1 rfl
              have h3 := hcur s rfl
              omega

theorem runsAux_lt_bound {α : Type} (p : α → Bool) :
    ∀ (l : List α) (i : Nat) (cur : Option Nat) (r : Nat × Nat),
      (∀ s, cur = some s → s < i) → r ∈ runsAux p l i cur →
      r.1 < r.2 ∧ r.2 ≤ i + l.length := by
  intro l
  induction l with
  | nil =>
      intro i cur r hcur hr
      cases cur with
      | none => simp [runsAux] at hr
      | some s =>
          simp [runsAux] at hr
          subst hr
          exact ⟨hcur s rfl, by simp⟩
  | cons x rest ih =>
      intro i cur r hcur hr
      cases cur with
      | none =>
          by_cases hp : p x
          · simp only [runsAux, if_pos hp] at hr
            have hb := ih (i + 1) (some i) r
              (by intro s hs; injection hs with h; omega) hr
            refine ⟨hb.1, ?_⟩
            have h2 := hb.2
            simp only [List.length_cons]
            omega
          · simp only [runsAux, if_neg hp] at hr
            have hb := ih (i + 1) none r (fun _ hs => nomatch hs) hr
            refine ⟨hb.1, ?_⟩
            have h2 := hb.2
            simp only [List.length_cons]
            omega
      | some s =>
          by_cases hp : p x
          · simp only [runsAux, if_pos hp] at hr
            have hb := ih (i + 1) (some s) r
              (by intro s2 hs2
                  injection hs2 with h
                  have h2 := hcur s rfl
                  omega) hr
            refine ⟨hb.1, ?_⟩
            have h2 := hb.2
            simp only [List.length_cons]
            omega
          · simp only [runsAux, if_neg hp] at hr
            rcases List.mem_cons.mp hr with h1 | h2
            · subst h1
              refine ⟨hcur s rfl, ?_⟩
              simp only [List.length_cons]
              omega
            · have hb := ih (i + 1) none r (fun _ hs2 => nomatch hs2) h2
              refine ⟨hb.1, ?_⟩
              have h2b := hb.2
              simp only [List.length_cons]
              omega

theorem runsAux_pairwise {α : Type} (p : α → Bool) :
    ∀ (l : List α) (i : Nat) (cur : Option Nat),
      (∀ s, cur = some s → s ≤ i) →
      List.Pairwise (fun r1 r2 => r1.2 ≤ r2.1) (runsAux p l i cur) := by
  intro l
  induction l with
  | nil =>
      intro i cur hcur
      cases cur <;> simp [runsAux]
  | cons x rest ih =>
      intro i cur hcur
      cases cur with
      | none =>
          by_cases hp : p x
          · simp only [runsAux, if_pos hp]
            exact ih (i + 1) (some i) (by intro s hs; injection hs with h; omega)
          · simp only [runsAux, if_neg hp]
            exact ih (i + 1) none (fun _ hs => nomatch hs)
      | some s =>
          by_cases hp : p x
          · simp only [runsAux, if_pos hp]
            exact ih (i + 1) (some s)
              (by intro s2 hs2
                  injection hs2 with h
                  have h2 := hcur s rfl
                  omega)
          · simp only [runsAux, if_neg hp]
            refine List.Pairwise.cons ?_
              (ih (i + 1) none (fun _ hs2 => nomatch hs2))
            intro r hr
            have hb := runsAux_onset_bound p rest (i + 1) none r
              (fun _ hs2 => nomatch hs2) hr
            have h1 := hb.1 rfl
            simp only
            omega

end Pym

namespace Pym

theorem runsAux_sound {α : Type} (p : α → Bool) (d : α) (L : List α) :
    ∀ (n i : Nat) (cur : Option Nat), L.length - i = n → i ≤ L.length →
      (∀ s, cur = some s → s < i ∧ (∀ k, s ≤ k → k < i → p (L.getD k d) = true)
        ∧ (0 < s → p (L.getD (s - 1) d) = false)) →
      (cur = none → i = 0 ∨ p (L.getD (i - 1) d) = false) →
      ∀ r : Nat × Nat, r ∈ runsAux p (L.drop i) i cur →
        r.2 ≤ L.length
        ∧ (∀ k, r.1 ≤ k → k < r.2 → p (L.getD k d) = true)
        ∧ (0 < r.1 → p (L.getD (r.1 - 1) d) = false)
        ∧ (r.2 < L.length → p (L.getD r.2 d) = false) := by
  intro n
  induction n with
  | zero =>
      intro i cur hn hle hsome hnone r hr
      have hi : i = L.length := by omega
      subst hi
      rw [List.drop_length] at hr
      cases cur with
      | none => simp [runsAux] at hr
      | some s =>
          simp [runsAux] at hr
          subst hr
          obtain ⟨hs, hint, hleft⟩ := hsome s rfl
          refine ⟨le_refl _, ?_, hleft, ?_⟩
          · intro k hk1 hk2
            exact hint k hk1 hk2
          · intro h
            exact absurd h (lt_irrefl _)
  | succ m ih =>
      intro i cur hn hle hsome hnone r hr
      have hlt : i < L.length := by omega
      have hm : L.length - (i + 1) = m := by omega
      have hd := List.drop_eq_getElem_cons (l := L) (n := i) hlt
      rw [hd] at hr
      have hgd : L.getD i d = L[i] := by
        simp [List.getD_eq_getElem?_getD, List.getElem?_eq_getElem hlt]
      cases cur with
      | none =>
          by_cases hp : p (L[i])
          · simp only [runsAux, if_pos hp] at hr
            have hrest : L.drop (i + 1) = L.drop (i + 1) := rfl
            refine ih (i + 1) (some i) hm (by omega) ?_
              (fun h => nomatch h) r ?_
            · intro s hs
              injection hs with h
              subst h
              refine ⟨by omega, ?_, ?_⟩
              · intro k hk1 hk2
                have hk : k = i := by omega
                subst hk
                rw [hgd]
                exact hp
              · intro hpos
                rcases hnone rfl with h0 | hf
                · omega
                · exact hf
            · exact hr
          · simp only [runsAux, if_neg hp] at hr
            simp only [Bool.not_eq_true] at hp
            refine ih (i + 1) none hm (by omega)
              (fun _ hs => nomatch hs) ?_ r hr
            intro _
            right
            have he : i + 1 - 1 = i := by omega
            rw [he, hgd]
            exact hp
      | some s =>
          by_cases hp : p (L[i])
          · simp only [runsAux, if_pos hp] at hr
            refine ih (i + 1) (some s) hm (by omega) ?_
              (fun h => nomatch h) r hr
            intro s2 hs2
            injection hs2 with h
            subst h
            obtain ⟨h1, h2, h3⟩ := hsome s rfl
            refine ⟨by omega, ?_, h3⟩
            intro k hk1 hk2
            rcases Nat.lt_or_ge k i with hk | hk
            · exact h2 k hk1 hk
            · have hki : k = i := by omega
              subst hki
              rw [hgd]
              exact hp
          · simp only [runsAux, if_neg hp] at hr
            simp only [Bool.not_eq_true] at hp
            rcases List.mem_cons.mp hr with h1 | h2
            · subst h1
              obtain ⟨h1, h2, h3⟩ := hsome s rfl
              refine ⟨by omega, h2, h3, ?_⟩
              intro _
              rw [hgd]
              exact hp
            · refine ih (i + 1) none hm (by omega)
                (fun _ hs2 => nomatch hs2) ?_ r h2
              intro _
              right
              have he : i + 1 - 1 = i := by omega
              rw [he, hgd]
              exact hp

theorem runsAux_complete {α : Type} (p : α → Bool) (d : α) (L : List α) :
    ∀ (n i : Nat) (cur : Option Nat), L.length - i = n →
      (∀ s, cur = some s → s < i) →
      ∀ k, k < L.length → p (L.getD k d) = true →
      (i ≤ k ∨ ∃ s, cur = some s ∧ s ≤ k ∧ k < i) →
      ∃ r : Nat × Nat, r ∈ runsAux p (L.drop i) i cur ∧ r.1 ≤ k ∧ k < r.2 := by
  intro n
  induction n with
  | zero =>
      intro i cur hn hcur k hk hpk hdisj
      have hi : L.length ≤ i := by omega
      rw [List.drop_eq_nil_of_le hi]
      rcases hdisj with h | ⟨s, hs, h1, h2⟩
      · exact absurd hk (by omega)
      · subst hs
        exact ⟨(s, i), by simp [runsAux], h1, by omega⟩
  | succ m ih =>
      intro i cur hn hcur k hk hpk hdisj
      have hlt : i < L.length := by clear hdisj; omega
      have hm : L.length - (i + 1) = m := by clear hdisj; omega
      have hd := List.drop_eq_getElem_cons (l := L) (n := i) hlt
      rw [hd]
      have hgd : L.getD i d = L[i] := by
        simp [List.getD_eq_getElem?_getD, List.getElem?_eq_getElem hlt]
      cases cur with
      | none =>
          rcases hdisj with hik | ⟨s, hs, _, _⟩
          swap
          · exact absurd hs (by simp)
          by_cases hp : p (L[i])
          · simp only [runsAux, if_pos hp]
            apply ih (i + 1) (some i) hm
              (by intro s hs; injection hs with h; omega) k hk hpk
            rcases Nat.eq_or_lt_of_le hik with he | hlt2
            · right
              exact ⟨i, rfl, by omega, by omega⟩
            · left
              omega
          · simp only [runsAux, if_neg hp]
            apply ih (i + 1) none hm (fun _ hs => nomatch hs) k hk hpk
            left
            rcases Nat.eq_or_lt_of_le hik with he | h
            · exfalso
              subst he
              rw [hgd] at hpk
              exact absurd hpk hp
            · omega
      | some s =>
          by_cases hp : p (L[i])
          · simp only [runsAux, if_pos hp]
            have hnext : (i + 1) ≤ k
                ∨ ∃ s2, (some s : Option Nat) = some s2 ∧ s2 ≤ k ∧ k < i + 1 := by
              rcases hdisj with hik | ⟨s2, hs2, h1, h2⟩
              · rcases Nat.eq_or_lt_of_le hik with he | h
                · right
                  refine ⟨s, rfl, ?_, by omega⟩
                  have h2 := hcur s rfl
                  omega
                · left
                  omega
              · injection hs2 with h
                right
                exact ⟨s, rfl, by omega, by omega⟩
            exact ih (i + 1) (some s) hm
              (by intro s2 hs2
                  injection hs2 with h
                  have h2 := hcur s rfl
                  omega) k hk hpk hnext
          · simp only [runsAux, if_neg hp]
            rcases hdisj with hik | ⟨s2, hs2, h1, h2⟩
            · have hki : i < k := by
                rcases Nat.eq_or_lt_of_le hik with he | h
                · exfalso
                  subst he
                  rw [hgd] at hpk
                  exact absurd hpk hp
                · exact h
              obtain ⟨r, hr, hr1, hr2⟩ := ih (i + 1) none hm
                (fun _ hs2 => nomatch hs2) k hk hpk (Or.inl (by omega))
              exact ⟨r, List.mem_cons_of_mem _ hr, hr1, hr2⟩
            · injection hs2 with h
              exact ⟨(s, i), List.mem_cons_self _ _, by omega, by omega⟩

theorem runs_lt {α : Type} {p : α → Bool} {l : List α} {r : Nat × Nat}
    (h : r ∈ runs p l) : r.1 < r.2 ∧ r.2 ≤ l.length := by
  have hb := runsAux_lt_bound p l 0 none r (fun _ hs => nomatch hs) h
  exact ⟨hb.1, by have := hb.2; omega⟩

theorem runs_pairwise {α : Type} (p : α → Bool) (l : List α) :
    List.Pairwise (fun r1 r2 => r1.2 ≤ r2.1) (runs p l) :=
  runsAux_pairwise p l 0 none (fun _ hs => nomatch hs)

theorem runs_sound {α : Type} (p : α → Bool) (d : α) (L : List α)
    {r : Nat × Nat} (h : r ∈ runs p L) :
    r.2 ≤ L.length
    ∧ (∀ k, r.1 ≤ k → k < r.2 → p (L.getD k d) = true)
    ∧ (0 < r.1 → p (L.getD (r.1 - 1) d) = false)
    ∧ (r.2 < L.length → p (L.getD r.2 d) = false) := by
  apply runsAux_sound p d L L.length 0 none (by omega) (by omega)
    (fun _ hs => nomatch hs) (fun _ => Or.inl rfl) r
  rw [List.drop_zero]
  exact h

theorem runs_complete {α : Type} (p : α → Bool) (d : α) (L : List α)
    {k : Nat} (hk : k < L.length) (hp : p (L.getD k d) = true) :
    ∃ r : Nat × Nat, r ∈ runs p L ∧ r.1 ≤ k ∧ k < r.2 := by
  have hc := runsAux_complete p d L L.length 0 none (by omega)
    (fun _ hs => nomatch hs) k hk hp (Or.inl (Nat.zero_le k))
  rwa [List.drop_zero] at hc

end Pym

namespace Pym

theorem mkEvents_pairwise {nm : String} {md : Nat} {rs : List (Nat × Nat)}
    (h : List.Pairwise (fun r1 r2 => r1.2 ≤ r2.1) rs) :
    List.Pairwise NonOverlap (mkEvents nm md rs) := by
  unfold mkEvents
  apply List.Pairwise.filter
  rw [List.pairwise_map]
  apply h.imp
  intro r1 r2 hr
  intro _
  left
  exact hr

theorem idtChunksF_ne_nil (th : ℚ) :
    ∀ (fuel : Nat) (v c : List (ℚ × ℚ)),
      c ∈ idtChunksF th fuel v → c ≠ [] := by
  intro fuel
  induction fuel with
  | zero =>
      intro v c hc
      simp [idtChunksF] at hc
  | succ m ih =>
      intro v c hc
      cases v with
      | nil => simp [idtChunksF] at hc
      | cons q rest =>
          simp only [idtChunksF] at hc
          rcases List.mem_cons.mp hc with h1 | h2
          · subst h1
            simp
          · exact ih _ c h2

theorem chunkIntervals_mem : ∀ (cs : List (List (ℚ × ℚ)))
    (i : Nat) (r : Nat × Nat), (∀ c ∈ cs, c ≠ []) →
    r ∈ chunkIntervals i cs → i ≤ r.1 ∧ r.1 < r.2 := by
  intro cs
  induction cs with
  | nil =>
      intro i r _ hr
      simp [chunkIntervals] at hr
  | cons c cs ih =>
      intro i r hne hr
      simp only [chunkIntervals] at hr
      rcases List.mem_cons.mp hr with h1 | h2
      · subst h1
        have hc : c ≠ [] := hne c (List.mem_cons_self _ _)
        have hlen : 0 < c.length := List.length_pos.mpr hc
        exact ⟨le_refl _, by simp only; omega⟩
      · have hb := ih (i + c.length) r
          (fun c2 hc2 => hne c2 (List.mem_cons_of_mem _ hc2)) h2
        exact ⟨by have := hb.1; omega, hb.2⟩

theorem chunkIntervals_pairwise : ∀ (cs : List (List (ℚ × ℚ))) (i : Nat),
    (∀ c ∈ cs, c ≠ []) →
    List.Pairwise (fun r1 r2 => r1.2 ≤ r2.1) (chunkIntervals i cs) := by
  intro cs
  induction cs with
  | nil =>
      intro i _
      simp [chunkIntervals]
  | cons c cs ih =>
      intro i hne
      simp only [chunkIntervals]
      refine List.Pairwise.cons ?_
        (ih (i + c.length) (fun c2 hc2 => hne c2 (List.mem_cons_of_mem _ hc2)))
      intro r hr
      have hb := chunkIntervals_mem cs (i + c.length) r
        (fun c2 hc2 => hne c2 (List.mem_cons_of_mem _ hc2)) hr
      simp only
      exact hb.1

/-- Claim C2: every event produced by any detector satisfies onset < offset
and duration = offset - onset, and within one detector run no two emitted
intervals with the same name overlap on the trial's timestamp axis. -/
theorem C2_interval_invariants : ∀ (t mult th : ℚ) (md : Nat)
    (v : List (ℚ × ℚ)) (e : Event),
    ((e ∈ ivt t md v ∨ e ∈ idt th md v ∨ e ∈ microsaccades mult md v) →
      e.onset < e.offset ∧ e.duration = e.offset - e.onset)
    ∧ List.Pairwise NonOverlap (ivt t md v)
    ∧ List.Pairwise NonOverlap (idt th md v)
    ∧ List.Pairwise NonOverlap (microsaccades mult md v) := by
  intro t mult th md v e
  refine ⟨?_, ?_, ?_, ?_⟩
  · rintro (h | h | h)
    · obtain ⟨r, hr, rfl, hmd⟩ := mem_mkEvents.mp h
      exact ⟨(runs_lt hr).1, rfl⟩
    · obtain ⟨r, hr, rfl, hmd⟩ := mem_mkEvents.mp h
      have hne : ∀ c ∈ idtChunks th v, c ≠ [] :=
        fun c hc => idtChunksF_ne_nil th v.length v c hc
      exact ⟨(chunkIntervals_mem _ 0 r hne hr).2, rfl⟩
    · obtain ⟨r, hr, rfl, hmd⟩ := mem_mkEvents.mp h
      exact ⟨(runs_lt hr).1, rfl⟩
  · exact mkEvents_pairwise (runs_pairwise _ v)
  · exact mkEvents_pairwise (chunkIntervals_pairwise _ 0
      (fun c hc => idtChunksF_ne_nil th v.length v c hc))
  · exact mkEvents_pairwise (runs_pairwise _ v)

/-- Claim C3 (amended): every fixation event emitted by I-VT at the lower
threshold is contained in a fixation event emitted at the higher threshold
(raising the threshold only grows or merges fixating runs), although the
total number of emitted events can increase. -/
theorem C3_ivt_threshold_containment : ∀ (t1 t2 : ℚ) (md : Nat)
    (v : List (ℚ × ℚ)) (e : Event), 0 ≤ t1 → t1 ≤ t2 → e ∈ ivt t1 md v →
    ∃ e2, e2 ∈ ivt t2 md v ∧ e2.onset ≤ e.onset ∧ e.offset ≤ e2.offset := by
  intro t1 t2 md v e h0 h12 he
  obtain ⟨r, hr, rfl, hmd⟩ := mem_mkEvents.mp he
  obtain ⟨a, b⟩ := r
  have hlt := runs_lt hr
  have hs := runs_sound _ ((0 : ℚ), (0 : ℚ)) v hr
  have hmono : ∀ u : ℚ × ℚ, decide (speedSq u ≤ t1 * t1) = true →
      decide (speedSq u ≤ t2 * t2) = true := by
    intro u hu
    simp only [decide_eq_true_eq] at hu ⊢
    exact le_trans hu (mul_self_le_mul_self h0 h12)
  have ha : a < v.length := by
    have h1 := hlt.1
    have h2 := hlt.2
    simp only at h1 h2
    omega
  have hpa : decide (speedSq (v.getD a (0, 0)) ≤ t2 * t2) = true :=
    hmono _ (hs.2.1 a (le_refl a) hlt.1)
  obtain ⟨r2, hr2, hr2a, hr2b⟩ :=
    runs_complete (fun u => decide (speedSq u ≤ t2 * t2))
      ((0 : ℚ), (0 : ℚ)) v ha hpa
  have hs2 := runs_sound _ ((0 : ℚ), (0 : ℚ)) v hr2
  have hbb : b ≤ r2.2 := by
    by_contra hcon
    push_neg at hcon
    have h1 : a ≤ r2.2 := by omega
    have h2 : decide (speedSq (v.getD r2.2 (0, 0)) ≤ t2 * t2) = true :=
      hmono _ (hs.2.1 r2.2 h1 hcon)
    have h3 : r2.2 < v.length := by
      have := hlt.2
      simp only at this
      omega
    have h4 := hs2.2.2.2 h3
    rw [h4] at h2
    exact Bool.noConfusion h2
  refine ⟨⟨"fixation", r2.1, r2.2, r2.2 - r2.1⟩, ?_, ?_, ?_⟩
  · apply mem_mkEvents.mpr
    refine ⟨r2, hr2, rfl, ?_⟩
    have hab := hlt.1
    simp only at hab hmd ⊢
    omega
  · exact hr2a
  · exact hbb

end Pym

section C3sec

attribute [local semireducible] Rat.add Rat.mul Rat.sub Rat.inv Rat.ofScientific

namespace Pym

/-- Counterexample to claim C3 as stated: on the velocity signal
[(3,0),(1,0),(3,0)], raising the I-VT velocity threshold from 0 to 2
increases the number of emitted fixation events from 0 to 1, because the
middle sample is moving at the lower threshold and fixating at the higher
one, turning an all-moving stretch into a new fixating run. -/
theorem C3_ivt_monotonicity_counterexample :
    (0 : ℚ) ≤ 0 ∧ (0 : ℚ) ≤ 2
    ∧ (ivt 0 1 [((3 : ℚ), (0 : ℚ)), (1, 0), (3, 0)]).length
        < (ivt 2 1 [((3 : ℚ), (0 : ℚ)), (1, 0), (3, 0)]).length := by
  decide

/-- Concrete instantiation of the C2 theorem on a four-sample trial. -/
theorem C2_interval_invariants_witness :
    (⟨"fixation", 0, 2, 2⟩ : Event).onset < (⟨"fixation", 0, 2, 2⟩ : Event).offset
    ∧ (⟨"fixation", 0, 2, 2⟩ : Event).duration
        = (⟨"fixation", 0, 2, 2⟩ : Event).offset
          - (⟨"fixation", 0, 2, 2⟩ : Event).onset :=
  (C2_interval_invariants 1 1 1 2 [(0, 0), (0, 0), (3, 3), (3, 3)]
    ⟨"fixation", 0, 2, 2⟩).1 (Or.inl (by decide))

/-- Concrete instantiation of the amended C3 theorem. -/
theorem C3_ivt_threshold_containment_witness :
    ∃ e2, e2 ∈ ivt 2 1 [((0 : ℚ), (0 : ℚ))]
      ∧ e2.onset ≤ (⟨"fixation", 0, 1, 1⟩ : Event).onset
      ∧ (⟨"fixation", 0, 1, 1⟩ : Event).offset ≤ e2.offset :=
  C3_ivt_threshold_containment 1 2 1 [(0, 0)] ⟨"fixation", 0, 1, 1⟩
    (by norm_num) (by norm_num) (by decide)

end Pym

end C3sec

namespace Pym

theorem foldMax_eq_foldl_map (f : ℚ × ℚ → ℚ) (q : ℚ × ℚ)
    (rest : List (ℚ × ℚ)) :
    foldMax f q rest = (rest.map f).foldl max (f q) := by
  simp [foldMax, List.foldl_map]

theorem foldMin_eq_foldl_map (f : ℚ × ℚ → ℚ) (q : ℚ × ℚ)
    (rest : List (ℚ × ℚ)) :
    foldMin f q rest = (rest.map f).foldl min (f q) := by
  simp [foldMin, List.foldl_map]

theorem foldl_max_const : ∀ (l : List ℚ) (c : ℚ),
    (∀ x ∈ l, x = c) → l.foldl max c = c := by
  intro l
  induction l with
  | nil =>
      intro c _
      rfl
  | cons x xs ih =>
      intro c h
      have hx : x = c := h x (List.mem_cons_self _ _)
      simp only [List.foldl_cons, hx, max_self]
      exact ih c (fun y hy => h y (List.mem_cons_of_mem _ hy))

theorem foldl_min_const : ∀ (l : List ℚ) (c : ℚ),
    (∀ x ∈ l, x = c) → l.foldl min c = c := by
  intro l
  induction l with
  | nil =>
      intro c _
      rfl
  | cons x xs ih =>
      intro c h
      have hx : x = c := h x (List.mem_cons_self _ _)
      simp only [List.foldl_cons, hx, min_self]
      exact ih c (fun y hy => h y (List.mem_cons_of_mem _ hy))

theorem dispersion_const (pts : List (ℚ × ℚ)) (q0 : ℚ × ℚ)
    (h : ∀ u ∈ pts, u = q0) : dispersion pts = 0 := by
  cases pts with
  | nil => rfl
  | cons q rest =>
      have hq : q = q0 := h q (List.mem_cons_self _ _)
      have hrest : ∀ x ∈ rest.map Prod.fst, x = q0.1 := by
        intro x hx
        obtain ⟨u, hu, rfl⟩ := List.mem_map.mp hx
        rw [h u (List.mem_cons_of_mem _ hu)]
      have hrest2 : ∀ x ∈ rest.map Prod.snd, x = q0.2 := by
        intro x hx
        obtain ⟨u, hu, rfl⟩ := List.mem_map.mp hx
        rw [h u (List.mem_cons_of_mem _ hu)]
      simp only [dispersion]
      rw [foldMax_eq_foldl_map, foldMin_eq_foldl_map, foldMax_eq_foldl_map,
        foldMin_eq_foldl_map, hq]
      rw [foldl_max_const _ _ hrest, foldl_min_const _ _ hrest,
        foldl_max_const _ _ hrest2, foldl_min_const _ _ hrest2]
      ring

theorem amplitudeSq_const (pts : List (ℚ × ℚ)) (q0 : ℚ × ℚ)
    (h : ∀ u ∈ pts, u = q0) : amplitudeSq pts = 0 := by
  cases pts with
  | nil => rfl
  | cons q rest =>
      have hne : q :: rest ≠ [] := by simp
      have hz : (q :: rest).getLast? = some ((q :: rest).getLast hne) :=
        List.getLast?_eq_getLast _ hne
      have hzq : (q :: rest).getLast hne = q0 :=
        h _ (List.getLast_mem hne)
      have hq : q = q0 := h q (List.mem_cons_self _ _)
      unfold amplitudeSq
      rw [hz]
      simp only [List.head?_cons]
      rw [hzq, hq]
      ring

theorem amplitudeSq_eq (pts : List (ℚ × ℚ)) (hne : pts ≠ []) :
    amplitudeSq pts
      = ((pts.getLast hne).1 - (pts.head hne).1) ^ 2
        + ((pts.getLast hne).2 - (pts.head hne).2) ^ 2 := by
  unfold amplitudeSq
  rw [List.head?_eq_head hne, List.getLast?_eq_getLast _ hne]

theorem dispersion_eq_max_min (pts : List (ℚ × ℚ)) (hne : pts ≠ []) :
    dispersion pts
      = (((pts.map Prod.fst).max?).getD 0 - ((pts.map Prod.fst).min?).getD 0)
        + (((pts.map Prod.snd).max?).getD 0 - ((pts.map Prod.snd).min?).getD 0) := by
  cases pts with
  | nil => exact absurd rfl hne
  | cons q rest =>
      simp only [dispersion]
      rw [foldMax_eq_foldl_map, foldMin_eq_foldl_map, foldMax_eq_foldl_map,
        foldMin_eq_foldl_map]
      simp [List.max?, List.min?]

/-- Claim C6: for every event whose covered samples all share one identical
position, the Event Property Engine computes dispersion = 0 and amplitude
= 0 (stated via the squared amplitude, whose square root is the amplitude);
in general dispersion equals (max - min of x) + (max - min of y) over the
samples within the event, and the squared amplitude equals the squared
Euclidean distance between the positions at the first and last included
samples. -/
theorem C6_event_properties : ∀ (sig : List (ℚ × ℚ)) (e : Event)
    (q0 : ℚ × ℚ),
    ((∀ u ∈ eventSamples sig e, u = q0) →
      dispersion (eventSamples sig e) = 0 ∧ amplitudeSq (eventSamples sig e) = 0)
    ∧ (eventSamples sig e ≠ [] →
      dispersion (eventSamples sig e)
        = ((((eventSamples sig e).map Prod.fst).max?).getD 0
            - (((eventSamples sig e).map Prod.fst).min?).getD 0)
          + ((((eventSamples sig e).map Prod.snd).max?).getD 0
            - (((eventSamples sig e).map Prod.snd).min?).getD 0))
    ∧ (∀ hne : eventSamples sig e ≠ [],
      amplitudeSq (eventSamples sig e)
        = (((eventSamples sig e).getLast hne).1
            - ((eventSamples sig e).head hne).1) ^ 2
          + (((eventSamples sig e).getLast hne).2
            - ((eventSamples sig e).head hne).2) ^ 2) := by
  intro sig e q0
  exact ⟨fun h => ⟨dispersion_const _ q0 h, amplitudeSq_const _ q0 h⟩,
    fun hne => dispersion_eq_max_min _ hne,
    fun hne => amplitudeSq_eq _ hne⟩

end Pym

section C6sec

attribute [local semireducible] Rat.add Rat.mul Rat.sub Rat.inv Rat.ofScientific

namespace Pym

/-- Concrete instantiation of the C6 theorem: a synthetic fixation event of
five identical-position samples has dispersion 0 and amplitude 0. -/
theorem C6_event_properties_witness :
    dispersion (eventSamples
        [((1 : ℚ), (1 : ℚ)), (1, 1), (1, 1), (1, 1), (1, 1)]
        ⟨"fixation", 0, 5, 5⟩) = 0
    ∧ amplitudeSq (eventSamples
        [((1 : ℚ), (1 : ℚ)), (1, 1), (1, 1), (1, 1), (1, 1)]
        ⟨"fixation", 0, 5, 5⟩) = 0 :=
  (C6_event_properties [(1, 1), (1, 1), (1, 1), (1, 1), (1, 1)]
    ⟨"fixation", 0, 5, 5⟩ (1, 1)).1 (by decide)

end Pym

end C6sec
